import Mathlib

/-!
# Language middleware: shallow embedding of `lang-middleware.go`

The Go package `langmiddleware` resolves the language of an HTTP request from a
cookie and/or the `Accept-Language` header.  The definitions below follow the
functions of `src/lang-middleware.go` one by one.  The package
`golang.org/x/text/language` and the parts of `net/http` the code calls are
external to the repository; they enter as an interface (`Language`, `Request`).
-/

namespace Langmiddleware

/-! ## External collaborators -/

/-- Modelled from the spec: the package `golang.org/x/text/language` is not part
of the repository sources, so its entry points are fields of this interface.
`ParseBase` is `language.ParseBase` (`Except.error` when `err != nil`),
`BaseString` is `Base.String`, `TagBase` is `Tag.Base` with the confidence
dropped (the code writes `tmp, _ := tags[j].Base()`), and `scanAcceptLanguage`
is the left-to-right reading of an `Accept-Language` value into
(tag, weight) pairs in list order, `none` on a parse failure.  Weights are an
order-preserving encoding of the q-value as a natural number (thousandths). -/
structure Language where
  Tag : Type
  Base : Type
  Err : Type
  ParseBase : String → Except Err Base
  BaseString : Base → String
  TagBase : Tag → Base
  scanAcceptLanguage : String → Option (List (Tag × Nat))

/-- Modelled from the spec: insertion of one (tag, weight) entry `e`, which in
the header stands before all entries of the list, into that list already
ordered by weight, highest first.  The entry passes the entries of strictly
greater weight and stops before the first entry of equal or smaller weight, so
entries of equal weight keep their original order. -/
def insertByWeight {α : Type} (e : α × Nat) : List (α × Nat) → List (α × Nat)
  | [] => [e]
  | x :: xs => if x.2 ≤ e.2 then e :: x :: xs else x :: insertByWeight e xs

/-- Modelled from the spec: "highest weight first, ties broken by original
order" (spec 4.1 step 1), a stable sort by descending weight. -/
def sortByWeight {α : Type} : List (α × Nat) → List (α × Nat)
  | [] => []
  | e :: es => insertByWeight e (sortByWeight es)

/-- Modelled from the spec: `language.ParseAcceptLanguage`, absent from the
repository sources.  Spec 4.1 step 1: the header is parsed into a sequence of
(tag, weight) pairs, highest weight first, ties broken by original order.  The
result is the pair of slices `tags` and `priorities` the Go function returns;
`none` stands for `err != nil`. -/
def ParseAcceptLanguage (L : Language) (header : String) :
    Option (List L.Tag × List Nat) :=
  match L.scanAcceptLanguage header with
  | none => none
  | some es => some ((sortByWeight es).map Prod.fst, (sortByWeight es).map Prod.snd)

/-- The `http.Cookie` fields the code reads. -/
structure Cookie where
  Name : String
  Value : String
deriving DecidableEq, Repr

/-- The unexported `contextKey` struct. -/
structure contextKey where
  name : String
deriving DecidableEq, Repr

/-- The key `LangContextKey = &contextKey{"lang"}`. -/
def LangContextKey : contextKey := ⟨"lang"⟩

/-- A request context as the chain of values set by `context.WithValue`,
innermost last. -/
abbrev Context := List (contextKey × String)

/-- The call `context.WithValue(ctx, key, val)`. -/
def Context.WithValue (ctx : Context) (key : contextKey) (val : String) : Context :=
  (key, val) :: ctx

/-- The call `ctx.Value(key)`: the most recently attached value under `key`. -/
def Context.Value : Context → contextKey → Option String
  | [], _ => none
  | (k, v) :: rest, key => if k = key then some v else Context.Value rest key

/-- Modelled from the spec: the inbound request of spec section 6, "a
named-cookie lookup by name returning presence/absence and value" (`r.Cookie`,
`none` when `err != nil`) and "a header lookup returning the raw string or
absence", together with the request context. -/
structure Request where
  Cookie : String → Option Cookie
  Header : String → Option String
  ctx : Context

/-- The call `r.Header.Get(key)`: the empty string when the header is absent. -/
def Request.HeaderGet (r : Request) (key : String) : String :=
  (r.Header key).getD ""

/-- The call `r.WithContext(ctx)`. -/
def Request.WithContext (r : Request) (ctx : Context) : Request :=
  { r with ctx := ctx }

/-! ## The middleware -/

/-- The constant `Cookie LangSource = 1 << iota`. -/
def LangSource.Cookie : Nat := 1

/-- The constant `Header`, the next `1 << iota`. -/
def LangSource.Header : Nat := 2

/-- The constant `HeaderAndCookie = Cookie | Header`. -/
def LangSource.HeaderAndCookie : Nat := LangSource.Cookie ||| LangSource.Header

/-- The struct `LangMiddleware`. -/
structure LangMiddleware where
  CookieName : String
  SupportedLanguages : List String
  DefaultLanguage : String
  source : Nat
deriving DecidableEq, Repr

/-- The function `contains`: linear search with string equality. -/
def contains : List String → String → Bool
  | [], _ => false
  | tmp :: rest, search => if tmp = search then true else contains rest search

/-- The loop of `fromLangHeader`, `for j := 0; j < len(tags) && j < len(priorities); j++`,
as a recursion over the two slices from index `j` on. -/
def fromLangHeaderLoop (L : Language) (i : LangMiddleware) :
    List L.Tag → List Nat → String
  | t :: tags, _ :: priorities =>
    let tmp := L.TagBase t
    let asStr := L.BaseString tmp
    if asStr = "mul" then i.DefaultLanguage
    else if contains i.SupportedLanguages asStr then asStr
    else fromLangHeaderLoop L i tags priorities
  | _, _ => i.DefaultLanguage

/-- The method `fromLangHeader`. -/
def fromLangHeader (L : Language) (i : LangMiddleware) (header : String) : String :=
  match ParseAcceptLanguage L header with
  | none => i.DefaultLanguage
  | some (tags, priorities) =>
    if tags.length = 0 then i.DefaultLanguage
    else fromLangHeaderLoop L i tags priorities

/-- The method `fromCookie`. -/
def fromCookie (L : Language) (i : LangMiddleware) (c : Cookie) : String :=
  match L.ParseBase c.Value with
  | .error _ => i.DefaultLanguage
  | .ok b =>
    let asStr := L.BaseString b
    if contains i.SupportedLanguages asStr then asStr else i.DefaultLanguage

/-- The method `extract`. -/
def extract (L : Language) (i : LangMiddleware) (r : Request) : String :=
  match (if i.source &&& LangSource.Cookie ≠ 0 then r.Cookie i.CookieName else none) with
  | some c => fromCookie L i c
  | none =>
    if i.source &&& LangSource.Header ≠ 0 then
      fromLangHeader L i (r.HeaderGet "Accept-Language")
    else i.DefaultLanguage

/-- The method `Extractor`: the handler wrapped around `next`.  The response
writer `w` is passed through untouched. -/
def Extractor {W R : Type} (L : Language) (i : LangMiddleware)
    (next : W → Request → R) (w : W) (r : Request) : R :=
  let ctx := r.ctx
  let lang := extract L i r
  let ctx := ctx.WithValue LangContextKey lang
  next w (r.WithContext ctx)

/-! ## Construction -/

/-- The loop of `globalInit` over `supportedLanguages` from index `i` on: each
entry that parses is overwritten in place by its canonical string; the loop
stops at the first entry that fails to parse.  The result is the slice as the
loop leaves it and whether the loop ran to the end. -/
def globalInitLoop (L : Language) : List String → List String × Bool
  | [] => ([], true)
  | s :: rest =>
    match L.ParseBase s with
    | .error _ => (s :: rest, false)
    | .ok tmp =>
      let r := globalInitLoop L rest
      (L.BaseString tmp :: r.1, r.2)

/-- What a call of `globalInit` leaves behind: the caller-owned slice after the
call, and the two return values (`none` for `nil`). -/
structure InitResult (L : Language) where
  slice : List String
  mid : Option LangMiddleware
  err : Option L.Err

/-- The function `globalInit`.  Both failure branches end in `return nil, nil`. -/
def globalInit (L : Language) (pDefaultLang : String) (supportedLanguages : List String) :
    InitResult L :=
  match L.ParseBase pDefaultLang with
  | .error _ => ⟨supportedLanguages, none, none⟩
  | .ok defaultLang =>
    match globalInitLoop L supportedLanguages with
    | (slice, false) => ⟨slice, none, none⟩
    | (slice, true) =>
      ⟨slice, some { CookieName := "", SupportedLanguages := slice,
                     DefaultLanguage := L.BaseString defaultLang, source := 0 }, none⟩

/-- How a constructor call ends: it returns its two values (`none` for `nil`),
or the Go runtime panics on a nil pointer dereference. -/
inductive Outcome (L : Language) where
  | returned (mid : Option LangMiddleware) (err : Option L.Err)
  | nilDereference

/-- The constructor `NewCookieOnly`; the first component is the caller-owned slice
after the call. -/
def NewCookieOnly (L : Language) (defaultLang : String) (supportedLanguages : List String)
    (cookieName : String) : List String × Outcome L :=
  let g := globalInit L defaultLang supportedLanguages
  match g.err with
  | some err => (g.slice, .returned none (some err))
  | none =>
    match g.mid with
    | none => (g.slice, .nilDereference)
    | some mid =>
      (g.slice, .returned (some { mid with source := LangSource.Cookie,
                                           CookieName := cookieName }) none)

/-- The constructor `NewHeaderOnly`. -/
def NewHeaderOnly (L : Language) (defaultLang : String) (supportedLanguages : List String) :
    List String × Outcome L :=
  let g := globalInit L defaultLang supportedLanguages
  match g.err with
  | some err => (g.slice, .returned none (some err))
  | none =>
    match g.mid with
    | none => (g.slice, .nilDereference)
    | some mid => (g.slice, .returned (some { mid with source := LangSource.Header }) none)

/-- The constructor `NewCookieAndHeader`. -/
def NewCookieAndHeader (L : Language) (defaultLang : String)
    (supportedLanguages : List String) (cookieName : String) : List String × Outcome L :=
  let g := globalInit L defaultLang supportedLanguages
  match g.err with
  | some err => (g.slice, .returned none (some err))
  | none =>
    match g.mid with
    | none => (g.slice, .nilDereference)
    | some mid =>
      (g.slice, .returned (some { mid with source := LangSource.HeaderAndCookie,
                                           CookieName := cookieName }) none)

/-! ## A reference instance of the language package -/

namespace Ref

/-- Modelled from the spec: white space as removed by the trimming of list
entries in an `Accept-Language` value. -/
def isSpace (c : Char) : Bool := c = ' ' || c = '\t' || c = '\n' || c = '\r'

/-- Modelled from the spec: removal of leading and trailing white space. -/
def trim (s : List Char) : List Char :=
  ((s.dropWhile isSpace).reverse.dropWhile isSpace).reverse

/-- Modelled from the spec: the part before the first `c` and the part after it
(empty when `c` does not occur). -/
def cut (c : Char) : List Char → List Char × List Char
  | [] => ([], [])
  | x :: xs => if x = c then ([], xs) else ((cut c xs).1.cons x, (cut c xs).2)

/-- Modelled from the spec: the pieces of `s` between occurrences of `c`. -/
def pieces (c : Char) : List Char → List (List Char)
  | [] => [[]]
  | x :: xs =>
    if x = c then [] :: pieces c xs
    else match pieces c xs with
      | [] => [[x]]
      | p :: ps => (x :: p) :: ps

/-- Modelled from the spec: a base language subtag is two or three letters
(glossary, "Base language tag"); its canonical form is lower case. -/
def parseBaseChars (s : List Char) : Option String :=
  if (s.length = 2 ∨ s.length = 3) ∧ s.all Char.isAlpha = true
  then some (String.mk (s.map Char.toLower)) else none

/-- Modelled from the spec: the subtags after the base (script, region, ...)
are one to eight letters or digits each. -/
def wellFormedSubtag (s : List Char) : Bool :=
  decide (1 ≤ s.length ∧ s.length ≤ 8) && s.all Char.isAlphanum

/-- Modelled from the spec: a parsed language tag, its base subtag in canonical
form and the remaining subtags. -/
structure Tag where
  base : String
  rest : List String
deriving DecidableEq, Repr

/-- Modelled from the spec: one entry of the list is the wildcard `*`, read as
the language code `mul` (glossary, "Wildcard tag"), or subtags joined by `-`. -/
def parseTag (s : List Char) : Option Tag :=
  if s = ['*'] then some ⟨"mul", []⟩
  else match pieces '-' s with
    | [] => none
    | b :: rest =>
      match parseBaseChars b with
      | none => none
      | some base =>
        if rest.all wellFormedSubtag then some ⟨base, rest.map String.mk⟩ else none

/-- Modelled from the spec: the value of a decimal digit. -/
def digit (c : Char) : Option Nat :=
  if c.isDigit then some (c.toNat - 48) else none

/-- Modelled from the spec: the digits of `s` read as a natural number, most
significant first, starting from `acc`. -/
def natOfDigits : List Char → Nat → Option Nat
  | [], acc => some acc
  | c :: cs, acc =>
    match digit c with
    | none => none
    | some d => natOfDigits cs (10 * acc + d)

/-- Modelled from the spec: a priority weight "(0-1)" written as a decimal
number (glossary, "Priority weight"), in thousandths; at most three decimals. -/
def parseWeight (s : List Char) : Option Nat :=
  let p := cut '.' s
  if p.1 = [] ∨ 3 < p.2.length then none
  else match natOfDigits p.1 0, natOfDigits (p.2 ++ List.replicate (3 - p.2.length) '0') 0 with
    | some n, some f => some (1000 * n + f)
    | _, _ => none

/-- Modelled from the spec: the weight parameter of an entry, `q=<weight>`. -/
def parseParam (s : List Char) : Option Nat :=
  match s with
  | 'q' :: s1 =>
    match trim s1 with
    | '=' :: s2 => parseWeight (trim s2)
    | _ => none
  | _ => none

/-- Modelled from the spec: the entries of the list read left to right; an empty
entry is skipped, an entry without weight has weight 1, an entry of weight 0 is
dropped, and an entry that is not a tag or whose weight is unreadable fails the
whole header. -/
def scanEntries : List (List Char) → Option (List (Tag × Nat))
  | [] => some []
  | e :: es =>
    if trim e = [] then scanEntries es
    else
      let p := cut ';' (trim e)
      match parseTag (trim p.1) with
      | none => none
      | some t =>
        match (if trim p.2 = [] then some 1000 else parseParam (trim p.2)) with
        | none => none
        | some w =>
          match scanEntries es with
          | none => none
          | some r => if w = 0 then some r else some ((t, w) :: r)

/-- Modelled from the spec: the reading of an `Accept-Language` value, a list of
entries separated by commas. -/
def scan (header : String) : Option (List (Tag × Nat)) :=
  scanEntries (pieces ',' header.data)

/-- Modelled from the spec: `language.ParseBase` followed by `Base.String`, the
normalization of a string to its "canonical base form" (spec 4.1).  A base
language tag is two or three letters and its canonical form is lower case; the
registry of language codes and the replacement of a three-letter code by its
two-letter equivalent are not modelled. -/
def ParseBase (s : String) : Except Unit String :=
  match parseBaseChars s.data with
  | none => .error ()
  | some b => .ok b

end Ref

/-- Modelled from the spec: a reference instance of the language package, on
which the concrete scenarios of spec section 8 are evaluated. -/
def refLanguage : Language where
  Tag := Ref.Tag
  Base := String
  Err := Unit
  ParseBase := Ref.ParseBase
  BaseString := id
  TagBase := Ref.Tag.base
  scanAcceptLanguage := Ref.scan

/-- The middleware of the test file: `NewCookieAndHeader("en", ["en","fr"], "cookie-lang")`. -/
def testMiddleware : LangMiddleware :=
  { CookieName := "cookie-lang", SupportedLanguages := ["en", "fr"],
    DefaultLanguage := "en", source := LangSource.HeaderAndCookie }

/-- A middleware whose default language is not among its supported languages. -/
def germanDefault : LangMiddleware :=
  { CookieName := "cookie-lang", SupportedLanguages := ["en", "fr"],
    DefaultLanguage := "de", source := LangSource.HeaderAndCookie }

/-- A middleware whose supported languages include the code `mul`. -/
def mulSupported : LangMiddleware :=
  { CookieName := "", SupportedLanguages := ["mul", "en"],
    DefaultLanguage := "en", source := LangSource.Header }

/-- A request carrying the cookie `cookie-lang=<value>` and, when `header` is
given, the header `Accept-Language: <header>`. -/
def requestWith (cookie : Option String) (header : Option String) : Request :=
  { Cookie := fun n =>
      match cookie with
      | some v => if n = "cookie-lang" then some ⟨"cookie-lang", v⟩ else none
      | none => none
    Header := fun k => if k = "Accept-Language" then header else none
    ctx := [] }

/-- A middleware built as by `NewHeaderOnly("de", ["en","fr"])`. -/
def headerOnly : LangMiddleware :=
  { CookieName := "", SupportedLanguages := ["en", "fr"],
    DefaultLanguage := "de", source := LangSource.Header }

/-- A middleware built as by `NewCookieOnly("de", ["en","fr"], "cookie-lang")`. -/
def cookieOnly : LangMiddleware :=
  { CookieName := "cookie-lang", SupportedLanguages := ["en", "fr"],
    DefaultLanguage := "de", source := LangSource.Cookie }

/-- The middleware `germanDefault` with its supported languages listed in another
order and with a repetition. -/
def germanDefaultReordered : LangMiddleware :=
  { CookieName := "cookie-lang", SupportedLanguages := ["fr", "en", "fr"],
    DefaultLanguage := "de", source := LangSource.HeaderAndCookie }

/-! ## Auxiliary facts -/

theorem contains_eq_true_iff (S : List String) (x : String) :
    contains S x = true ↔ x ∈ S := by
  induction S with
  | nil => simp [contains]
  | cons a rest ih =>
    by_cases h : a = x
    · simp [contains, h]
    · have h2 : ¬ x = a := fun e => h e.symm
      simp [contains, h, h2, ih]

theorem contains_eq_false_iff (S : List String) (x : String) :
    contains S x = false ↔ x ∉ S := by
  rw [← contains_eq_true_iff]; simp

theorem fromLangHeaderLoop_mem (L : Language) (i : LangMiddleware) :
    ∀ (tags : List L.Tag) (qs : List Nat),
      fromLangHeaderLoop L i tags qs ∈ i.SupportedLanguages ∨
      fromLangHeaderLoop L i tags qs = i.DefaultLanguage := by
  intro tags
  induction tags with
  | nil => intro qs; right; simp [fromLangHeaderLoop]
  | cons t ts ih =>
    intro qs
    cases qs with
    | nil => right; simp [fromLangHeaderLoop]
    | cons q qs =>
      simp only [fromLangHeaderLoop]
      split_ifs with h1 h2
      · right; rfl
      · left; exact (contains_eq_true_iff _ _).1 h2
      · exact ih qs

theorem fromLangHeader_mem (L : Language) (i : LangMiddleware) (h : String) :
    fromLangHeader L i h ∈ i.SupportedLanguages ∨
    fromLangHeader L i h = i.DefaultLanguage := by
  unfold fromLangHeader
  split
  · right; rfl
  · split_ifs
    · right; rfl
    · exact fromLangHeaderLoop_mem L i _ _

theorem fromCookie_mem (L : Language) (i : LangMiddleware) (c : Cookie) :
    fromCookie L i c ∈ i.SupportedLanguages ∨ fromCookie L i c = i.DefaultLanguage := by
  unfold fromCookie
  split
  · right; rfl
  · simp only
    split_ifs with h
    · left; exact (contains_eq_true_iff _ _).1 h
    · right; rfl

theorem ParseAcceptLanguage_length (L : Language) (h : String) (tags : List L.Tag)
    (qs : List Nat) (hp : ParseAcceptLanguage L h = some (tags, qs)) :
    tags.length = qs.length := by
  unfold ParseAcceptLanguage at hp
  split at hp
  · exact absurd hp (by simp)
  · simp only [Option.some.injEq, Prod.mk.injEq] at hp
    rw [← hp.1, ← hp.2]; simp

/-- The loop passes over a run of entries that are neither the wildcard nor
supported. -/
theorem fromLangHeaderLoop_skip (L : Language) (i : LangMiddleware) :
    ∀ (pre rest : List L.Tag) (qs : List Nat),
      pre.length ≤ qs.length →
      (∀ t ∈ pre, L.BaseString (L.TagBase t) ≠ "mul" ∧
        L.BaseString (L.TagBase t) ∉ i.SupportedLanguages) →
      fromLangHeaderLoop L i (pre ++ rest) qs =
        fromLangHeaderLoop L i rest (qs.drop pre.length) := by
  intro pre
  induction pre with
  | nil => intro rest qs _ _; simp
  | cons t ts ih =>
    intro rest qs hlen hpre
    cases qs with
    | nil => simp at hlen
    | cons q qs =>
      have ht := hpre t (List.mem_cons_self _ _)
      have hc : contains i.SupportedLanguages (L.BaseString (L.TagBase t)) = false :=
        (contains_eq_false_iff _ _).2 ht.2
      simp only [List.cons_append, fromLangHeaderLoop, ht.1, if_false, hc,
        List.length_cons, List.drop_succ_cons]
      exact ih rest qs (by simpa using hlen)
        (fun t2 h2 => hpre t2 (List.mem_cons_of_mem _ h2))

/-- The loop stops with the default language at a wildcard that no supported
entry precedes. -/
theorem fromLangHeaderLoop_wildcard (L : Language) (i : LangMiddleware) :
    ∀ (pre : List L.Tag) (w : L.Tag) (post : List L.Tag) (qs : List Nat),
      L.BaseString (L.TagBase w) = "mul" →
      (∀ t ∈ pre, L.BaseString (L.TagBase t) ∉ i.SupportedLanguages) →
      fromLangHeaderLoop L i (pre ++ w :: post) qs = i.DefaultLanguage := by
  intro pre
  induction pre with
  | nil =>
    intro w post qs hw _
    cases qs with
    | nil => simp [fromLangHeaderLoop]
    | cons q qs => simp [fromLangHeaderLoop, hw]
  | cons t ts ih =>
    intro w post qs hw hpre
    cases qs with
    | nil => simp [fromLangHeaderLoop]
    | cons q qs =>
      have hc : contains i.SupportedLanguages (L.BaseString (L.TagBase t)) = false :=
        (contains_eq_false_iff _ _).2 (hpre t (List.mem_cons_self _ _))
      have hrec := ih w post qs hw (fun t2 h2 => hpre t2 (List.mem_cons_of_mem _ h2))
      by_cases hm : L.BaseString (L.TagBase t) = "mul"
      · simp [fromLangHeaderLoop, hm]
      · simp [fromLangHeaderLoop, hm, hc, hrec]

theorem insertByWeight_mem {α : Type} (e x : α × Nat) (l : List (α × Nat))
    (hx : x ∈ insertByWeight e l) : x = e ∨ x ∈ l := by
  induction l with
  | nil => simpa [insertByWeight] using hx
  | cons y ys ih =>
    simp only [insertByWeight] at hx
    split_ifs at hx with h
    · simpa using hx
    · rcases List.mem_cons.1 hx with h1 | h1
      · right; simp [h1]
      · rcases ih h1 with h2 | h2
        · left; exact h2
        · right; exact List.mem_cons_of_mem _ h2

theorem insertByWeight_sorted {α : Type} (e : α × Nat) (l : List (α × Nat))
    (hl : l.Pairwise (fun a b => b.2 ≤ a.2)) :
    (insertByWeight e l).Pairwise (fun a b => b.2 ≤ a.2) := by
  induction l with
  | nil => simp [insertByWeight]
  | cons y ys ih =>
    simp only [insertByWeight]
    rw [List.pairwise_cons] at hl
    split_ifs with h
    · refine List.Pairwise.cons ?_ (List.Pairwise.cons hl.1 hl.2)
      intro b hb
      rcases List.mem_cons.1 hb with h1 | h1
      · rw [h1]; exact h
      · exact Nat.le_trans (hl.1 b h1) h
    · refine List.Pairwise.cons ?_ (ih hl.2)
      intro b hb
      rcases insertByWeight_mem e b ys hb with h1 | h1
      · rw [h1]; exact Nat.le_of_lt (Nat.lt_of_not_le h)
      · exact hl.1 b h1

theorem sortByWeight_sorted {α : Type} (es : List (α × Nat)) :
    (sortByWeight es).Pairwise (fun a b => b.2 ≤ a.2) := by
  induction es with
  | nil => simp [sortByWeight]
  | cons e es ih => exact insertByWeight_sorted e _ ih

theorem ParseAcceptLanguage_sorted (L : Language) (h : String) (tags : List L.Tag)
    (qs : List Nat) (hp : ParseAcceptLanguage L h = some (tags, qs)) :
    qs.Pairwise (fun a b => b ≤ a) := by
  unfold ParseAcceptLanguage at hp
  split at hp
  · exact absurd hp (by simp)
  · simp only [Option.some.injEq, Prod.mk.injEq] at hp
    rw [← hp.2, List.pairwise_map]
    exact sortByWeight_sorted _

theorem globalInit_err (L : Language) (d : String) (S : List String) :
    (globalInit L d S).err = none := by
  unfold globalInit
  split
  · rfl
  · split <;> rfl

theorem globalInitLoop_fails (L : Language) :
    ∀ (S : List String), (∃ s ∈ S, ∃ e, L.ParseBase s = .error e) →
      (globalInitLoop L S).2 = false := by
  intro S
  induction S with
  | nil => intro h; simp at h
  | cons a rest ih =>
    intro h
    obtain ⟨s, hs, e, he⟩ := h
    cases hpa : L.ParseBase a with
    | error e2 => simp [globalInitLoop, hpa]
    | ok b =>
      rcases List.mem_cons.1 hs with h1 | h1
      · rw [h1, hpa] at he; cases he
      · simp only [globalInitLoop, hpa]
        exact ih ⟨s, h1, e, he⟩

theorem globalInit_mid_none (L : Language) (d : String) (S : List String)
    (hbad : (∃ e, L.ParseBase d = .error e) ∨ ∃ s ∈ S, ∃ e, L.ParseBase s = .error e) :
    (globalInit L d S).mid = none := by
  unfold globalInit
  cases hd : L.ParseBase d with
  | error e => rfl
  | ok b =>
    rcases hbad with ⟨e, he⟩ | h
    · rw [hd] at he; cases he
    · have hl := globalInitLoop_fails L S h
      simp only
      split
      · rfl
      · rename_i sl heq
        rw [heq] at hl; cases hl

/-- The loop reads the tags only through the strings of their bases. -/
theorem fromLangHeaderLoop_congr (L : Language) (i : LangMiddleware) :
    ∀ (tags1 tags2 : List L.Tag) (qs1 qs2 : List Nat),
      tags1.map (fun t => L.BaseString (L.TagBase t)) =
        tags2.map (fun t => L.BaseString (L.TagBase t)) →
      tags1.length = qs1.length → tags2.length = qs2.length →
      fromLangHeaderLoop L i tags1 qs1 = fromLangHeaderLoop L i tags2 qs2 := by
  intro tags1
  induction tags1 with
  | nil =>
    intro tags2 qs1 qs2 hm _ _
    cases tags2 with
    | nil => simp [fromLangHeaderLoop]
    | cons t ts => simp at hm
  | cons a as ih =>
    intro tags2 qs1 qs2 hm h1 h2
    cases tags2 with
    | nil => simp at hm
    | cons t ts =>
      cases qs1 with
      | nil => simp at h1
      | cons q1 r1 =>
        cases qs2 with
        | nil => simp at h2
        | cons q2 r2 =>
          simp only [List.map_cons, List.cons.injEq] at hm
          simp only [List.length_cons, Nat.add_right_cancel_iff] at h1 h2
          simp only [fromLangHeaderLoop, hm.1, ih ts r1 r2 hm.2 h1 h2]

/-- The loop returns the default language when no entry has a supported base. -/
theorem fromLangHeaderLoop_no_match (L : Language) (i : LangMiddleware) :
    ∀ (tags : List L.Tag) (qs : List Nat),
      (∀ t ∈ tags, L.BaseString (L.TagBase t) ∉ i.SupportedLanguages) →
      fromLangHeaderLoop L i tags qs = i.DefaultLanguage := by
  intro tags
  induction tags with
  | nil => intro qs _; simp [fromLangHeaderLoop]
  | cons t ts ih =>
    intro qs hno
    cases qs with
    | nil => simp [fromLangHeaderLoop]
    | cons q qs =>
      have hc : contains i.SupportedLanguages (L.BaseString (L.TagBase t)) = false :=
        (contains_eq_false_iff _ _).2 (hno t (List.mem_cons_self _ _))
      have hrec := ih qs (fun t2 h2 => hno t2 (List.mem_cons_of_mem _ h2))
      by_cases hm : L.BaseString (L.TagBase t) = "mul"
      · simp [fromLangHeaderLoop, hm]
      · simp [fromLangHeaderLoop, hm, hc, hrec]

/-- The loop never returns the wildcard code unless it is the default. -/
theorem fromLangHeaderLoop_mul (L : Language) (i : LangMiddleware) :
    ∀ (tags : List L.Tag) (qs : List Nat),
      fromLangHeaderLoop L i tags qs = "mul" → i.DefaultLanguage = "mul" := by
  intro tags
  induction tags with
  | nil => intro qs h; simpa [fromLangHeaderLoop] using h
  | cons t ts ih =>
    intro qs h
    cases qs with
    | nil => simpa [fromLangHeaderLoop] using h
    | cons q qs =>
      simp only [fromLangHeaderLoop] at h
      split_ifs at h with h1 h2
      · exact h
      · exact absurd h h1
      · exact ih qs h

theorem contains_congr (S S2 : List String) (hS : ∀ x, x ∈ S ↔ x ∈ S2) (x : String) :
    contains S x = contains S2 x := by
  cases h : contains S2 x with
  | true => exact (contains_eq_true_iff _ _).2 ((hS x).2 ((contains_eq_true_iff _ _).1 h))
  | false =>
    exact (contains_eq_false_iff _ _).2
      (fun hx => (contains_eq_false_iff _ _).1 h ((hS x).1 hx))

/-- The loop reads the supported list only through membership. -/
theorem fromLangHeaderLoop_set (L : Language) (i i2 : LangMiddleware)
    (hD : i.DefaultLanguage = i2.DefaultLanguage)
    (hS : ∀ x, x ∈ i.SupportedLanguages ↔ x ∈ i2.SupportedLanguages) :
    ∀ (tags : List L.Tag) (qs : List Nat),
      fromLangHeaderLoop L i tags qs = fromLangHeaderLoop L i2 tags qs := by
  intro tags
  induction tags with
  | nil => intro qs; simp [fromLangHeaderLoop, hD]
  | cons t ts ih =>
    intro qs
    cases qs with
    | nil => simp [fromLangHeaderLoop, hD]
    | cons q qs =>
      simp only [fromLangHeaderLoop, hD, ih qs,
        contains_congr i.SupportedLanguages i2.SupportedLanguages hS]

theorem insertByWeight_filter {α : Type} (e : α × Nat) (v : Nat) :
    ∀ l : List (α × Nat),
      (insertByWeight e l).filter (fun x => decide (x.2 = v)) =
        (e :: l).filter (fun x => decide (x.2 = v)) := by
  intro l
  induction l with
  | nil => simp [insertByWeight]
  | cons y ys ih =>
    simp only [insertByWeight]
    split_ifs with h
    · rfl
    · have hlt : e.2 < y.2 := Nat.lt_of_not_le h
      rw [List.filter_cons, ih]
      by_cases hy : y.2 = v
      · have he : ¬ e.2 = v := by omega
        simp [List.filter_cons, hy, he]
      · simp [List.filter_cons, hy]

/-- The sort is stable: entries of one weight keep the order of the header. -/
theorem sortByWeight_filter {α : Type} (v : Nat) :
    ∀ es : List (α × Nat),
      (sortByWeight es).filter (fun x => decide (x.2 = v)) =
        es.filter (fun x => decide (x.2 = v)) := by
  intro es
  induction es with
  | nil => simp [sortByWeight]
  | cons e es ih =>
    simp only [sortByWeight]
    rw [insertByWeight_filter, List.filter_cons, ih, List.filter_cons]

theorem sortByWeight_mem {α : Type} (x : α × Nat) :
    ∀ es : List (α × Nat), x ∈ sortByWeight es → x ∈ es := by
  intro es
  induction es with
  | nil => intro h; simp [sortByWeight] at h
  | cons e es ih =>
    intro h
    rcases insertByWeight_mem e x _ h with h1 | h1
    · rw [h1]; exact List.mem_cons_self _ _
    · exact List.mem_cons_of_mem _ (ih h1)

/-- Entries of one common weight are left in the order of the header. -/
theorem sortByWeight_const {α : Type} (w : Nat) (es : List (α × Nat))
    (hw : ∀ x ∈ es, x.2 = w) : sortByWeight es = es := by
  have h1 : (sortByWeight es).filter (fun x => decide (x.2 = w)) = sortByWeight es :=
    List.filter_eq_self.2 (fun x hx => by simpa using hw x (sortByWeight_mem x es hx))
  have h2 : es.filter (fun x => decide (x.2 = w)) = es :=
    List.filter_eq_self.2 (fun x hx => by simpa using hw x hx)
  rw [← h1, sortByWeight_filter, h2]

theorem globalInitLoop_ok (L : Language) :
    ∀ (S sl : List String), globalInitLoop L S = (sl, true) →
      List.Forall₂ (fun s c => ∃ b, L.ParseBase s = .ok b ∧ c = L.BaseString b) S sl := by
  intro S
  induction S with
  | nil =>
    intro sl h
    simp only [globalInitLoop, Prod.mk.injEq] at h
    rw [← h.1]; exact List.Forall₂.nil
  | cons a rest ih =>
    intro sl h
    cases hpa : L.ParseBase a with
    | error e => simp [globalInitLoop, hpa] at h
    | ok b =>
      simp only [globalInitLoop, hpa, Prod.mk.injEq] at h
      rw [← h.1]
      exact List.Forall₂.cons ⟨b, hpa, rfl⟩ (ih _ (Prod.ext rfl h.2))

theorem globalInitLoop_stops (L : Language) (bad : String) (post : List String)
    (hbad : ∃ e, L.ParseBase bad = .error e) :
    ∀ pre : List (String × L.Base), (∀ p ∈ pre, L.ParseBase p.1 = .ok p.2) →
      globalInitLoop L (pre.map Prod.fst ++ bad :: post) =
        (pre.map (fun p => L.BaseString p.2) ++ bad :: post, false) := by
  intro pre
  induction pre with
  | nil =>
    intro _
    obtain ⟨e, he⟩ := hbad
    simp [globalInitLoop, he]
  | cons p ps ih =>
    intro hpre
    have hp := hpre p (List.mem_cons_self _ _)
    have hrec := ih (fun p2 h2 => hpre p2 (List.mem_cons_of_mem _ h2))
    simp [globalInitLoop, hp, hrec]

theorem globalInit_some (L : Language) (d : String) (S : List String) (mid : LangMiddleware)
    (h : (globalInit L d S).mid = some mid) :
    (globalInit L d S).slice = mid.SupportedLanguages ∧
    List.Forall₂ (fun s c => ∃ b, L.ParseBase s = .ok b ∧ c = L.BaseString b)
      S mid.SupportedLanguages ∧
    ∃ bd, L.ParseBase d = .ok bd ∧ mid.DefaultLanguage = L.BaseString bd := by
  unfold globalInit at h ⊢
  cases hd : L.ParseBase d with
  | error e => rw [hd] at h; cases h
  | ok bd =>
    rw [hd] at h
    simp only at h ⊢
    cases hl : globalInitLoop L S with
    | mk sl ok =>
      rw [hl] at h
      cases ok with
      | false => cases h
      | true =>
        simp only [Option.some.injEq] at h
        subst h
        exact ⟨rfl, globalInitLoop_ok L S sl hl, bd, rfl, rfl⟩

set_option maxRecDepth 100000 in
theorem toLower_ascii : ∀ k, k < 128 → (Char.ofNat k).isAlpha = true →
    (Char.ofNat k).toLower.isAlpha = true ∧
    (Char.ofNat k).toLower.toLower = (Char.ofNat k).toLower := by
  decide

theorem toLower_alpha (c : Char) (h : c.isAlpha = true) :
    c.toLower.isAlpha = true ∧ c.toLower.toLower = c.toLower := by
  have hlt : c.toNat < 128 := by
    simp only [Char.isAlpha, Char.isUpper, Char.isLower, Bool.or_eq_true, Bool.and_eq_true,
      decide_eq_true_eq] at h
    have h1 : ∀ a b : UInt32, a ≤ b → a.toNat ≤ b.toNat := fun a b hab => hab
    rcases h with ⟨_, h2⟩ | ⟨_, h2⟩
    · have := h1 _ _ h2
      simp only [Char.toNat]
      have e : (90 : UInt32).toNat = 90 := rfl
      omega
    · have := h1 _ _ h2
      simp only [Char.toNat]
      have e : (122 : UInt32).toNat = 122 := rfl
      omega
  have := toLower_ascii c.toNat hlt (by rw [Char.ofNat_toNat]; exact h)
  rwa [Char.ofNat_toNat] at this

/-- The canonical form produced by the reference `ParseBase` parses to itself. -/
theorem refParseBase_idempotent (s : String) (b : String)
    (h : refLanguage.ParseBase s = .ok b) :
    ∃ b2, refLanguage.ParseBase (refLanguage.BaseString b) = .ok b2 ∧
      refLanguage.BaseString b2 = refLanguage.BaseString b := by
  refine ⟨b, ?_, rfl⟩
  simp only [refLanguage, Ref.ParseBase, id] at h ⊢
  cases hp : Ref.parseBaseChars s.data with
  | none => rw [hp] at h; cases h
  | some b0 =>
    rw [hp] at h
    simp only [Except.ok.injEq] at h
    subst h
    unfold Ref.parseBaseChars at hp
    split_ifs at hp with hc
    simp only [Option.some.injEq] at hp
    subst hp
    have hall : ∀ c ∈ s.data, c.isAlpha = true := by
      simpa [List.all_eq_true] using hc.2
    have h1 : (List.map Char.toLower s.data).all Char.isAlpha = true := by
      rw [List.all_eq_true]
      intro c hcm
      obtain ⟨c0, hc0, rfl⟩ := List.mem_map.1 hcm
      exact (toLower_alpha c0 (hall c0 hc0)).1
    have h2 : List.map Char.toLower (List.map Char.toLower s.data) =
        List.map Char.toLower s.data := by
      rw [List.map_map]
      apply List.map_congr_left
      intro c0 hc0
      exact (toLower_alpha c0 (hall c0 hc0)).2
    have h3 : Ref.parseBaseChars (List.map Char.toLower s.data) =
        some (String.mk (List.map Char.toLower s.data)) := by
      unfold Ref.parseBaseChars
      rw [if_pos ⟨by simpa using hc.1, h1⟩, h2]
    rw [h3]

/-- What a constructor that returns a middleware has done: the caller-owned
slice is the stored list, which pairs entry by entry with the parsed input, and
the stored default is the canonical string of the parsed default. -/
theorem constructor_returned (L : Language) (d : String) (S : List String)
    (cookieName : String) (slice : List String) (m : LangMiddleware)
    (hc : NewCookieOnly L d S cookieName = (slice, Outcome.returned (some m) none) ∨
      NewHeaderOnly L d S = (slice, Outcome.returned (some m) none) ∨
      NewCookieAndHeader L d S cookieName = (slice, Outcome.returned (some m) none)) :
    slice = m.SupportedLanguages ∧
    List.Forall₂ (fun s c => ∃ b, L.ParseBase s = .ok b ∧ c = L.BaseString b)
      S m.SupportedLanguages ∧
    ∃ bd, L.ParseBase d = .ok bd ∧ m.DefaultLanguage = L.BaseString bd := by
  have he := globalInit_err L d S
  have key : ∃ mid0, (globalInit L d S).mid = some mid0 ∧
      slice = (globalInit L d S).slice ∧
      m.SupportedLanguages = mid0.SupportedLanguages ∧
      m.DefaultLanguage = mid0.DefaultLanguage := by
    cases hm : (globalInit L d S).mid with
    | none =>
      rcases hc with hc | hc | hc
      · simp [NewCookieOnly, he, hm] at hc
      · simp [NewHeaderOnly, he, hm] at hc
      · simp [NewCookieAndHeader, he, hm] at hc
    | some mid0 =>
      refine ⟨mid0, rfl, ?_⟩
      rcases hc with hc | hc | hc
      · simp only [NewCookieOnly, he, hm, Prod.mk.injEq, Outcome.returned.injEq,
          Option.some.injEq, and_true] at hc
        rw [← hc.2]; exact ⟨hc.1.symm, rfl, rfl⟩
      · simp only [NewHeaderOnly, he, hm, Prod.mk.injEq, Outcome.returned.injEq,
          Option.some.injEq, and_true] at hc
        rw [← hc.2]; exact ⟨hc.1.symm, rfl, rfl⟩
      · simp only [NewCookieAndHeader, he, hm, Prod.mk.injEq, Outcome.returned.injEq,
          Option.some.injEq, and_true] at hc
        rw [← hc.2]; exact ⟨hc.1.symm, rfl, rfl⟩
  obtain ⟨mid0, hm, hsl, hS, hD⟩ := key
  obtain ⟨g1, g2, bd, g3, g4⟩ := globalInit_some L d S mid0 hm
  rw [← hS] at g1 g2
  rw [← hD] at g4
  exact ⟨hsl.trans g1, g2, bd, g3, g4⟩

/-- Every entry on the right of an entry-by-entry normalization is the canonical
string of some parsed input. -/
theorem normalized_entries (L : Language) :
    ∀ (A B : List String),
      List.Forall₂ (fun s c => ∃ b, L.ParseBase s = .ok b ∧ c = L.BaseString b) A B →
      ∀ x ∈ B, ∃ s b, L.ParseBase s = .ok b ∧ x = L.BaseString b := by
  intro A B hAB
  induction hAB with
  | nil => intro x hx; cases hx
  | cons hab _ ih =>
    intro x hx
    rcases List.mem_cons.1 hx with h2 | h2
    · obtain ⟨b, hb1, hb2⟩ := hab
      exact ⟨_, b, hb1, h2.trans hb2⟩
    · exact ih x h2

/-! ## The claims -/

/-- C1: for every configuration (supported list, default) and every header string,
the empty and the malformed ones included, `fromLangHeader` returns an element of
the supported list or the default language. -/
theorem C1_fromLangHeader_supported_or_default (L : Language) (i : LangMiddleware)
    (h : String) :
    fromLangHeader L i h ∈ i.SupportedLanguages ∨
    fromLangHeader L i h = i.DefaultLanguage :=
  fromLangHeader_mem L i h

/-- C2: what the code does when the default language or a supported entry fails
to parse: `globalInit` returns `nil, nil`, so each of the three constructors goes
past its error check and dereferences the nil middleware; no error value reaches
the caller. -/
theorem C2_constructors_dereference_nil (L : Language) (d : String) (S : List String)
    (cookieName : String)
    (hbad : (∃ e, L.ParseBase d = .error e) ∨ ∃ s ∈ S, ∃ e, L.ParseBase s = .error e) :
    (globalInit L d S).mid = none ∧ (globalInit L d S).err = none ∧
    (NewCookieOnly L d S cookieName).2 = Outcome.nilDereference ∧
    (NewHeaderOnly L d S).2 = Outcome.nilDereference ∧
    (NewCookieAndHeader L d S cookieName).2 = Outcome.nilDereference := by
  have hm := globalInit_mid_none L d S hbad
  have he := globalInit_err L d S
  refine ⟨hm, he, ?_, ?_, ?_⟩
  · simp [NewCookieOnly, hm, he]
  · simp [NewHeaderOnly, hm, he]
  · simp [NewCookieAndHeader, hm, he]

theorem C2_constructors_dereference_nil_witness :
    (NewCookieOnly refLanguage "english!" ["en", "fr"] "cookie-lang").2
      = Outcome.nilDereference ∧
    (NewHeaderOnly refLanguage "en" ["en", "f"]).2 = Outcome.nilDereference :=
  ⟨(C2_constructors_dereference_nil refLanguage "english!" ["en", "fr"] "cookie-lang"
      (Or.inl ⟨(), rfl⟩)).2.2.1,
   (C2_constructors_dereference_nil refLanguage "en" ["en", "f"] ""
      (Or.inr ⟨"f", by decide, (), rfl⟩)).2.2.2.1⟩

/-- C3: when the parsed, priority-ordered sequence of a header holds a wildcard
entry (base code `mul`) and no entry before it has a base in the supported list,
`fromLangHeader` returns the default language, whatever follows the wildcard and
whether or not the default is supported. -/
theorem C3_wildcard_yields_default (L : Language) (i : LangMiddleware) (h : String)
    (pre : List L.Tag) (w : L.Tag) (post : List L.Tag) (qs : List Nat)
    (hp : ParseAcceptLanguage L h = some (pre ++ w :: post, qs))
    (hw : L.BaseString (L.TagBase w) = "mul")
    (hpre : ∀ t ∈ pre, L.BaseString (L.TagBase t) ∉ i.SupportedLanguages) :
    fromLangHeader L i h = i.DefaultLanguage := by
  unfold fromLangHeader
  rw [hp]
  simp only
  split_ifs
  · rfl
  · exact fromLangHeaderLoop_wildcard L i pre w post qs hw hpre

theorem C3_wildcard_yields_default_witness :
    fromLangHeader refLanguage testMiddleware "de;q=0.85, fr;q=0.9, en;q=0.8, *;q=1" = "en" ∧
    fromLangHeader refLanguage germanDefault "*" = "de" :=
  ⟨C3_wildcard_yields_default refLanguage testMiddleware
      "de;q=0.85, fr;q=0.9, en;q=0.8, *;q=1" [] ⟨"mul", []⟩
      [⟨"fr", []⟩, ⟨"de", []⟩, ⟨"en", []⟩] [1000, 900, 850, 800] rfl rfl
      (by intro t ht; cases ht),
   C3_wildcard_yields_default refLanguage germanDefault "*" [] ⟨"mul", []⟩ [] [1000]
      rfl rfl (by intro t ht; cases ht)⟩

/-- C4, as stated, fails: with `mul` among the supported languages the header `*`
parses to a single entry of base `mul`, which is the first entry with a supported
base and has no wildcard before it, yet `fromLangHeader` returns the default `en`. -/
theorem C4_counterexample :
    ¬ (∀ (L : Language) (i : LangMiddleware) (h : String) (pre : List L.Tag) (e : L.Tag)
        (post : List L.Tag) (qs : List Nat),
        ParseAcceptLanguage L h = some (pre ++ e :: post, qs) →
        (∀ t ∈ pre, L.BaseString (L.TagBase t) ≠ "mul" ∧
          L.BaseString (L.TagBase t) ∉ i.SupportedLanguages) →
        L.BaseString (L.TagBase e) ∈ i.SupportedLanguages →
        fromLangHeader L i h = L.BaseString (L.TagBase e)) := by
  intro hall
  have h1 := hall refLanguage mulSupported "*" [] ⟨"mul", []⟩ [] [1000] rfl
    (by intro t ht; cases ht) (by decide)
  revert h1
  decide

/-- C4 (amended): when the parsed sequence of a header, which is in descending
order of weight, holds an entry `e` whose base is supported and is not the
wildcard code `mul`, and no entry before `e` is a wildcard or has a supported
base, `fromLangHeader` returns the base of `e`. -/
theorem C4_first_supported_entry (L : Language) (i : LangMiddleware) (h : String)
    (pre : List L.Tag) (e : L.Tag) (post : List L.Tag) (qs : List Nat)
    (hp : ParseAcceptLanguage L h = some (pre ++ e :: post, qs))
    (hpre : ∀ t ∈ pre, L.BaseString (L.TagBase t) ≠ "mul" ∧
      L.BaseString (L.TagBase t) ∉ i.SupportedLanguages)
    (he : L.BaseString (L.TagBase e) ∈ i.SupportedLanguages)
    (hne : L.BaseString (L.TagBase e) ≠ "mul") :
    fromLangHeader L i h = L.BaseString (L.TagBase e) ∧ qs.Pairwise (fun a b => b ≤ a) := by
  refine ⟨?_, ParseAcceptLanguage_sorted L h _ qs hp⟩
  have hlen := ParseAcceptLanguage_length L h _ qs hp
  simp only [List.length_append, List.length_cons] at hlen
  unfold fromLangHeader
  rw [hp]
  simp only
  rw [if_neg (by simp)]
  rw [fromLangHeaderLoop_skip L i pre (e :: post) qs (by omega) hpre]
  cases hd : qs.drop pre.length with
  | nil =>
    have := congrArg List.length hd
    simp at this
    omega
  | cons q rest =>
    have hc := (contains_eq_true_iff _ _).2 he
    simp [fromLangHeaderLoop, hne, hc]

theorem C4_first_supported_entry_witness :
    fromLangHeader refLanguage testMiddleware "fr-BE;q=0.8, en-US;q=0.9, fr-BE;q=0.6" = "en" ∧
    List.Pairwise (fun a b => b ≤ a) [900, 800, 600] :=
  C4_first_supported_entry refLanguage testMiddleware
    "fr-BE;q=0.8, en-US;q=0.9, fr-BE;q=0.6" [] ⟨"en", ["US"]⟩
    [⟨"fr", ["BE"]⟩, ⟨"fr", ["BE"]⟩] [900, 800, 600] rfl
    (by intro t ht; cases ht) (by decide) (by decide)

/-- C5: `fromLangHeader` is a total function, and on every header whose parsing
fails or yields no tags, the empty header among them, it returns exactly the
default language, whether or not the default is supported. -/
theorem C5_default_on_failure_or_no_tags (L : Language) (i : LangMiddleware) (h : String)
    (hp : ParseAcceptLanguage L h = none ∨ ∃ qs, ParseAcceptLanguage L h = some ([], qs)) :
    fromLangHeader L i h = i.DefaultLanguage := by
  unfold fromLangHeader
  rcases hp with hp | ⟨qs, hp⟩
  · rw [hp]
  · rw [hp]; rfl

theorem C5_default_on_failure_or_no_tags_witness :
    fromLangHeader refLanguage germanDefault "" = "de" ∧
    fromLangHeader refLanguage germanDefault "en;q=high, fr" = "de" :=
  ⟨C5_default_on_failure_or_no_tags refLanguage germanDefault "" (Or.inr ⟨[], rfl⟩),
   C5_default_on_failure_or_no_tags refLanguage germanDefault "en;q=high, fr" (Or.inl rfl)⟩

/-- C6: when the source policy includes Cookie and the cookie named `CookieName`
is present in the request, `extract` returns `fromCookie` of that cookie, and
every request with the same cookie resolves to the same language, whatever its
`Accept-Language` header. -/
theorem C6_cookie_takes_precedence (L : Language) (i : LangMiddleware) (r : Request)
    (c : Cookie) (hs : i.source &&& LangSource.Cookie ≠ 0)
    (hc : r.Cookie i.CookieName = some c) :
    extract L i r = fromCookie L i c ∧
    ∀ r2 : Request, r2.Cookie i.CookieName = r.Cookie i.CookieName →
      extract L i r2 = extract L i r := by
  have key : ∀ r3 : Request, r3.Cookie i.CookieName = some c →
      extract L i r3 = fromCookie L i c := by
    intro r3 h3
    unfold extract
    rw [if_pos hs, h3]
  refine ⟨key r hc, ?_⟩
  intro r2 h2
  rw [key r hc, key r2 (h2.trans hc)]

theorem C6_cookie_takes_precedence_witness :
    extract refLanguage testMiddleware (requestWith (some "fr") (some "en")) = "fr" ∧
    extract refLanguage testMiddleware (requestWith (some "fr") none) =
      extract refLanguage testMiddleware (requestWith (some "fr") (some "en")) :=
  ⟨(C6_cookie_takes_precedence refLanguage testMiddleware (requestWith (some "fr") (some "en"))
      ⟨"cookie-lang", "fr"⟩ (by decide) rfl).1,
   (C6_cookie_takes_precedence refLanguage testMiddleware (requestWith (some "fr") (some "en"))
      ⟨"cookie-lang", "fr"⟩ (by decide) rfl).2 (requestWith (some "fr") none) rfl⟩

/-- C7: when the source policy includes Header and either excludes Cookie or the
named cookie is absent, `extract` returns `fromLangHeader` of the value of the
`Accept-Language` header; a missing header is read as the empty string, which
resolves to the default language as soon as the empty string parses to no tags. -/
theorem C7_header_fallback (L : Language) (i : LangMiddleware) (r : Request)
    (hH : i.source &&& LangSource.Header ≠ 0)
    (hC : i.source &&& LangSource.Cookie = 0 ∨ r.Cookie i.CookieName = none) :
    extract L i r = fromLangHeader L i ((r.Header "Accept-Language").getD "") ∧
    (r.Header "Accept-Language" = none → extract L i r = fromLangHeader L i "") ∧
    (r.Header "Accept-Language" = none →
      (ParseAcceptLanguage L "" = none ∨ ∃ qs, ParseAcceptLanguage L "" = some ([], qs)) →
      extract L i r = i.DefaultLanguage) := by
  have key : extract L i r = fromLangHeader L i ((r.Header "Accept-Language").getD "") := by
    unfold extract
    rcases hC with hC | hC
    · rw [if_neg (by simp [hC])]
      simp only [Request.HeaderGet]
      rw [if_pos hH]
    · by_cases h1 : i.source &&& LangSource.Cookie ≠ 0
      · rw [if_pos h1, hC]
        simp only [Request.HeaderGet]
        rw [if_pos hH]
      · rw [if_neg h1]
        simp only [Request.HeaderGet]
        rw [if_pos hH]
  refine ⟨key, ?_, ?_⟩
  · intro hn; rw [key, hn]; rfl
  · intro hn hp
    rw [key, hn]
    simp only [Option.getD_none]
    unfold fromLangHeader
    rcases hp with hp | ⟨qs, hp⟩
    · rw [hp]
    · rw [hp]; rfl

theorem C7_header_fallback_witness :
    extract refLanguage headerOnly (requestWith (some "fr") (some "fr-BE")) = "fr" ∧
    extract refLanguage germanDefault (requestWith none (some "fr-BE")) = "fr" ∧
    extract refLanguage germanDefault (requestWith none none) = "de" :=
  ⟨(C7_header_fallback refLanguage headerOnly (requestWith (some "fr") (some "fr-BE"))
      (by decide) (Or.inl (by decide))).1,
   (C7_header_fallback refLanguage germanDefault (requestWith none (some "fr-BE"))
      (by decide) (Or.inr rfl)).1,
   (C7_header_fallback refLanguage germanDefault (requestWith none none)
      (by decide) (Or.inr rfl)).2.2 rfl (Or.inr ⟨[], rfl⟩)⟩

/-- C8: `fromCookie` returns the normalized base tag of the cookie value when the
value parses as a base language tag and the normalized tag is supported; it returns
the default language when the value fails to parse or the normalized tag is not
supported. -/
theorem C8_fromCookie_cases (L : Language) (i : LangMiddleware) (c : Cookie) :
    (∀ b, L.ParseBase c.Value = .ok b → L.BaseString b ∈ i.SupportedLanguages →
      fromCookie L i c = L.BaseString b) ∧
    (∀ b, L.ParseBase c.Value = .ok b → L.BaseString b ∉ i.SupportedLanguages →
      fromCookie L i c = i.DefaultLanguage) ∧
    (∀ e, L.ParseBase c.Value = .error e → fromCookie L i c = i.DefaultLanguage) := by
  refine ⟨?_, ?_, ?_⟩
  · intro b hb hm
    unfold fromCookie
    rw [hb]
    simp only
    rw [if_pos ((contains_eq_true_iff _ _).2 hm)]
  · intro b hb hm
    unfold fromCookie
    rw [hb]
    simp only
    rw [if_neg (by rw [contains_eq_true_iff]; exact hm)]
  · intro e he
    unfold fromCookie
    rw [he]

theorem C8_fromCookie_cases_witness :
    fromCookie refLanguage germanDefault ⟨"cookie-lang", "FR"⟩ = "fr" ∧
    fromCookie refLanguage germanDefault ⟨"cookie-lang", "it"⟩ = "de" ∧
    fromCookie refLanguage germanDefault ⟨"cookie-lang", "fr-BE"⟩ = "de" :=
  ⟨(C8_fromCookie_cases refLanguage germanDefault ⟨"cookie-lang", "FR"⟩).1 "fr" rfl
      (by decide),
   (C8_fromCookie_cases refLanguage germanDefault ⟨"cookie-lang", "it"⟩).2.1 "it" rfl
      (by decide),
   (C8_fromCookie_cases refLanguage germanDefault ⟨"cookie-lang", "fr-BE"⟩).2.2 () rfl⟩

/-- C9: for every configuration and every request, the language `extract` resolves
is a supported language or exactly the default language, and it is the value the
handler built by `Extractor` attaches to the request context under
`LangContextKey` before calling the next handler. -/
theorem C9_resolved_language_invariant {W : Type} (L : Language) (i : LangMiddleware)
    (w : W) (r : Request) :
    (extract L i r ∈ i.SupportedLanguages ∨ extract L i r = i.DefaultLanguage) ∧
    Extractor L i (fun _ r2 => r2.ctx.Value LangContextKey) w r = some (extract L i r) := by
  constructor
  · unfold extract
    split
    · exact fromCookie_mem L i _
    · split_ifs
      · exact fromLangHeader_mem L i _
      · right; rfl
  · simp [Extractor, Request.WithContext, Context.WithValue, Context.Value]

/-- C10: the result of `fromLangHeader` depends on the parsed entries only through
their base subtags: two headers whose parsed sequences have the same bases, entry
by entry, resolve to the same language; so a tag with region or script subtags
resolves as its base does. -/
theorem C10_depends_on_bases_only (L : Language) (i : LangMiddleware) (h1 h2 : String)
    (tags1 tags2 : List L.Tag) (qs1 qs2 : List Nat)
    (hp1 : ParseAcceptLanguage L h1 = some (tags1, qs1))
    (hp2 : ParseAcceptLanguage L h2 = some (tags2, qs2))
    (hb : tags1.map (fun t => L.BaseString (L.TagBase t)) =
      tags2.map (fun t => L.BaseString (L.TagBase t))) :
    fromLangHeader L i h1 = fromLangHeader L i h2 := by
  have hl1 := ParseAcceptLanguage_length L h1 tags1 qs1 hp1
  have hl2 := ParseAcceptLanguage_length L h2 tags2 qs2 hp2
  have hlen : tags1.length = tags2.length := by
    have := congrArg List.length hb
    simpa using this
  unfold fromLangHeader
  rw [hp1, hp2]
  simp only [hlen]
  rw [fromLangHeaderLoop_congr L i tags1 tags2 qs1 qs2 hb hl1 hl2]

theorem C10_depends_on_bases_only_witness :
    fromLangHeader refLanguage testMiddleware "en-US" =
      fromLangHeader refLanguage testMiddleware "en" ∧
    fromLangHeader refLanguage germanDefault "fr-Latn-BE;q=0.5" =
      fromLangHeader refLanguage germanDefault "fr" ∧
    fromLangHeader refLanguage testMiddleware "en" = "en" ∧
    fromLangHeader refLanguage testMiddleware "en-US" = "en" ∧
    fromLangHeader refLanguage testMiddleware "en, en-US" = "en" :=
  ⟨C10_depends_on_bases_only refLanguage testMiddleware "en-US" "en"
      [⟨"en", ["US"]⟩] [⟨"en", []⟩] [1000] [1000] rfl rfl rfl,
   C10_depends_on_bases_only refLanguage germanDefault "fr-Latn-BE;q=0.5" "fr"
      [⟨"fr", ["Latn", "BE"]⟩] [⟨"fr", []⟩] [500] [1000] rfl rfl rfl,
   rfl, rfl, rfl⟩

/-- C11: when a constructor succeeds, for every instance of the language package,
the caller-owned slice after the call is the middleware's `SupportedLanguages`;
entry by entry, in the same order and with the same length, it holds the canonical
string of the parsed input entry, and `DefaultLanguage` is the canonical string of
the parsed input default.  With the base-tag normalization of the reference
instance (two or three letters, canonical in lower case) each stored code, the
default included, is a fixed point of the normalization: it parses, and its
canonical string is itself. -/
theorem C11_constructor_normalizes :
    (∀ (L : Language) (d : String) (S : List String) (cookieName : String)
        (slice : List String) (m : LangMiddleware),
      (NewCookieOnly L d S cookieName = (slice, Outcome.returned (some m) none) ∨
        NewHeaderOnly L d S = (slice, Outcome.returned (some m) none) ∨
        NewCookieAndHeader L d S cookieName = (slice, Outcome.returned (some m) none)) →
      slice = m.SupportedLanguages ∧
      List.Forall₂ (fun s c => ∃ b, L.ParseBase s = .ok b ∧ c = L.BaseString b)
        S m.SupportedLanguages ∧
      m.SupportedLanguages.length = S.length ∧
      ∃ bd, L.ParseBase d = .ok bd ∧ m.DefaultLanguage = L.BaseString bd) ∧
    (∀ (d : String) (S : List String) (cookieName : String)
        (slice : List String) (m : LangMiddleware),
      (NewCookieOnly refLanguage d S cookieName
          = (slice, Outcome.returned (some m) none) ∨
        NewHeaderOnly refLanguage d S = (slice, Outcome.returned (some m) none) ∨
        NewCookieAndHeader refLanguage d S cookieName
          = (slice, Outcome.returned (some m) none)) →
      ∀ c ∈ m.DefaultLanguage :: slice,
        ∃ b, refLanguage.ParseBase c = .ok b ∧ refLanguage.BaseString b = c) := by
  constructor
  · intro L d S cookieName slice m hc
    obtain ⟨g1, g2, g3⟩ := constructor_returned L d S cookieName slice m hc
    exact ⟨g1, g2, g2.length_eq.symm, g3⟩
  · intro d S cookieName slice m hc c hcm
    obtain ⟨g1, g2, bd, g3, g4⟩ := constructor_returned refLanguage d S cookieName slice m hc
    rcases List.mem_cons.1 hcm with h1 | h1
    · obtain ⟨b2, hb2, hb3⟩ := refParseBase_idempotent d bd g3
      rw [h1, g4]; exact ⟨b2, hb2, hb3⟩
    · rw [g1] at h1
      obtain ⟨s0, b0, hs0, hx0⟩ := normalized_entries refLanguage S _ g2 c h1
      obtain ⟨b2, hb2, hb3⟩ := refParseBase_idempotent s0 b0 hs0
      rw [hx0]; exact ⟨b2, hb2, hb3⟩

theorem C11_constructor_normalizes_witness :
    List.Forall₂ (fun s c => ∃ b, refLanguage.ParseBase s = .ok b ∧
        c = refLanguage.BaseString b) ["FR", "En"] ["fr", "en"] ∧
    List.length ["en", "fr", "it"] = List.length ["EN", "fr", "It"] ∧
    (∀ c ∈ ["de", "en", "fr", "it"],
      ∃ b, refLanguage.ParseBase c = .ok b ∧ refLanguage.BaseString b = c) ∧
    (∀ c ∈ ["en", "fr", "en"],
      ∃ b, refLanguage.ParseBase c = .ok b ∧ refLanguage.BaseString b = c) :=
  ⟨(C11_constructor_normalizes.1 refLanguage "EN" ["FR", "En"] "cookie-lang" ["fr", "en"]
      { CookieName := "cookie-lang", SupportedLanguages := ["fr", "en"],
        DefaultLanguage := "en", source := LangSource.Cookie }
      (Or.inl rfl)).2.1,
   (C11_constructor_normalizes.1 refLanguage "DE" ["EN", "fr", "It"] "" ["en", "fr", "it"]
      { CookieName := "", SupportedLanguages := ["en", "fr", "it"],
        DefaultLanguage := "de", source := LangSource.Header }
      (Or.inr (Or.inl rfl))).2.2.1,
   C11_constructor_normalizes.2 "DE" ["EN", "fr", "It"] "" ["en", "fr", "it"]
      { CookieName := "", SupportedLanguages := ["en", "fr", "it"],
        DefaultLanguage := "de", source := LangSource.Header }
      (Or.inr (Or.inl rfl)),
   C11_constructor_normalizes.2 "en" ["FR", "EN"] "cookie-lang" ["fr", "en"]
      { CookieName := "cookie-lang", SupportedLanguages := ["fr", "en"],
        DefaultLanguage := "en", source := LangSource.HeaderAndCookie }
      (Or.inr (Or.inr rfl))⟩

/-- C12: when the source policy does not include Header and either excludes Cookie
or the named cookie is absent, `extract` returns the default language, and so
does it for every request with the same cookie lookup, whatever its
`Accept-Language` header. -/
theorem C12_default_without_header (L : Language) (i : LangMiddleware) (r : Request)
    (hH : i.source &&& LangSource.Header = 0)
    (hC : i.source &&& LangSource.Cookie = 0 ∨ r.Cookie i.CookieName = none) :
    extract L i r = i.DefaultLanguage ∧
    ∀ r2 : Request, r2.Cookie i.CookieName = r.Cookie i.CookieName →
      extract L i r2 = i.DefaultLanguage := by
  have key : ∀ r3 : Request,
      (i.source &&& LangSource.Cookie = 0 ∨ r3.Cookie i.CookieName = none) →
      extract L i r3 = i.DefaultLanguage := by
    intro r3 h3
    unfold extract
    have hn : (if i.source &&& LangSource.Cookie ≠ 0 then r3.Cookie i.CookieName else none)
        = none := by
      rcases h3 with h3 | h3
      · rw [if_neg (by simp [h3])]
      · split_ifs
        · exact h3
        · rfl
    rw [hn]
    simp only
    rw [if_neg (by simp [hH])]
  refine ⟨key r hC, ?_⟩
  intro r2 h2
  apply key
  rcases hC with hC | hC
  · exact Or.inl hC
  · exact Or.inr (h2.trans hC)

theorem C12_default_without_header_witness :
    extract refLanguage cookieOnly (requestWith none (some "fr")) = "de" ∧
    extract refLanguage cookieOnly (requestWith none (some "en;q=0.9")) = "de" :=
  ⟨(C12_default_without_header refLanguage cookieOnly (requestWith none (some "fr"))
      (by decide) (Or.inr rfl)).1,
   (C12_default_without_header refLanguage cookieOnly (requestWith none (some "fr"))
      (by decide) (Or.inr rfl)).2 (requestWith none (some "en;q=0.9")) rfl⟩

/-- C13: the parsed sequence is in descending order of weight and entries of equal
weight keep the order of the header; so for a header whose entries all carry the
same weight and hold no wildcard, the parsed sequence is the listed one and
`fromLangHeader` returns the base of the first listed entry whose base is
supported. -/
theorem C13_ties_keep_list_order (L : Language) (i : LangMiddleware) (h : String)
    (pre : List (L.Tag × Nat)) (e : L.Tag × Nat) (post : List (L.Tag × Nat)) (w : Nat)
    (hs : L.scanAcceptLanguage h = some (pre ++ e :: post))
    (hw : ∀ x ∈ pre ++ e :: post, x.2 = w)
    (hnw : ∀ x ∈ pre ++ e :: post, L.BaseString (L.TagBase x.1) ≠ "mul")
    (hpre : ∀ x ∈ pre, L.BaseString (L.TagBase x.1) ∉ i.SupportedLanguages)
    (he : L.BaseString (L.TagBase e.1) ∈ i.SupportedLanguages) :
    fromLangHeader L i h = L.BaseString (L.TagBase e.1) ∧
    ParseAcceptLanguage L h =
      some ((pre ++ e :: post).map Prod.fst, (pre ++ e :: post).map Prod.snd) ∧
    (∀ es : List (L.Tag × Nat),
      (sortByWeight es).Pairwise (fun a b => b.2 ≤ a.2) ∧
      ∀ v : Nat, (sortByWeight es).filter (fun x => decide (x.2 = v)) =
        es.filter (fun x => decide (x.2 = v))) := by
  have hsort := sortByWeight_const w (pre ++ e :: post) hw
  have hp : ParseAcceptLanguage L h =
      some ((pre ++ e :: post).map Prod.fst, (pre ++ e :: post).map Prod.snd) := by
    unfold ParseAcceptLanguage
    rw [hs]
    simp only [hsort]
  refine ⟨?_, hp, fun es => ⟨sortByWeight_sorted es, fun v => sortByWeight_filter v es⟩⟩
  unfold fromLangHeader
  rw [hp]
  simp only
  rw [if_neg (by simp)]
  rw [List.map_append, List.map_cons]
  rw [fromLangHeaderLoop_skip L i (pre.map Prod.fst) (e.1 :: post.map Prod.fst) _
    (by simp) (by
      intro t ht
      obtain ⟨x, hx, rfl⟩ := List.mem_map.1 ht
      exact ⟨hnw x (List.mem_append_left _ hx), hpre x hx⟩)]
  have hne : L.BaseString (L.TagBase e.1) ≠ "mul" :=
    hnw e (List.mem_append_right _ (List.mem_cons_self _ _))
  have hcont := (contains_eq_true_iff _ _).2 he
  simp [fromLangHeaderLoop, hne, hcont]

theorem C13_ties_keep_list_order_witness :
    fromLangHeader refLanguage testMiddleware "fr, en" = "fr" ∧
    fromLangHeader refLanguage testMiddleware "en, fr" = "en" ∧
    fromLangHeader refLanguage testMiddleware "it;q=0.5, fr-BE;q=0.5, en;q=0.5" = "fr" :=
  ⟨(C13_ties_keep_list_order refLanguage testMiddleware "fr, en"
      [] (⟨"fr", []⟩, 1000) [(⟨"en", []⟩, 1000)] 1000 rfl (by decide) (by decide)
      (by decide) (by decide)).1,
   (C13_ties_keep_list_order refLanguage testMiddleware "en, fr"
      [] (⟨"en", []⟩, 1000) [(⟨"fr", []⟩, 1000)] 1000 rfl (by decide) (by decide)
      (by decide) (by decide)).1,
   (C13_ties_keep_list_order refLanguage testMiddleware "it;q=0.5, fr-BE;q=0.5, en;q=0.5"
      [(⟨"it", []⟩, 500)] (⟨"fr", ["BE"]⟩, 500) [(⟨"en", []⟩, 500)] 500 rfl (by decide)
      (by decide) (by decide) (by decide)).1⟩

/-- C14: when a header parses into a non-empty sequence in which no entry has a
supported base, `fromLangHeader` returns the default language. -/
theorem C14_no_match_yields_default (L : Language) (i : LangMiddleware) (h : String)
    (tags : List L.Tag) (qs : List Nat)
    (hp : ParseAcceptLanguage L h = some (tags, qs))
    (hne : tags ≠ [])
    (hno : ∀ t ∈ tags, L.BaseString (L.TagBase t) ∉ i.SupportedLanguages) :
    fromLangHeader L i h = i.DefaultLanguage := by
  unfold fromLangHeader
  rw [hp]
  simp only
  rw [if_neg (by simpa using hne)]
  exact fromLangHeaderLoop_no_match L i tags qs hno

theorem C14_no_match_yields_default_witness :
    fromLangHeader refLanguage germanDefault "it, es-AR;q=0.7" = "de" :=
  C14_no_match_yields_default refLanguage germanDefault "it, es-AR;q=0.7"
    [⟨"it", []⟩, ⟨"es", ["AR"]⟩] [1000, 700] rfl (List.cons_ne_nil _ _) (by decide)

/-- C15: `fromLangHeader` returns the code `mul` only when the default language is
`mul`, also when `mul` is supported and listed in the header; `fromCookie`, on a
cookie value that parses to the base `mul`, returns `mul` when it is supported. -/
theorem C15_mul_header_versus_cookie (L : Language) (i : LangMiddleware) (h : String)
    (c : Cookie) :
    (fromLangHeader L i h = "mul" → i.DefaultLanguage = "mul") ∧
    (∀ b, L.ParseBase c.Value = .ok b → L.BaseString b = "mul" →
      "mul" ∈ i.SupportedLanguages → fromCookie L i c = "mul") := by
  constructor
  · unfold fromLangHeader
    split
    · exact id
    · split_ifs
      · exact id
      · exact fromLangHeaderLoop_mul L i _ _
  · intro b hb hm hS
    unfold fromCookie
    rw [hb]
    simp only [hm]
    rw [if_pos ((contains_eq_true_iff _ _).2 hS)]

theorem C15_mul_header_versus_cookie_witness :
    fromLangHeader refLanguage mulSupported "mul" ≠ "mul" ∧
    fromCookie refLanguage mulSupported ⟨"", "mul"⟩ = "mul" :=
  ⟨fun hmul => absurd
      ((C15_mul_header_versus_cookie refLanguage mulSupported "mul" ⟨"", "mul"⟩).1 hmul)
      (by decide),
   (C15_mul_header_versus_cookie refLanguage mulSupported "mul" ⟨"", "mul"⟩).2 "mul" rfl rfl
      (by decide)⟩

/-- C16: two middlewares with the same default language whose supported lists have
the same elements, in any order and with any repetitions, resolve every header and
every cookie value to the same language. -/
theorem C16_supported_list_as_set (L : Language) (i i2 : LangMiddleware) (h : String)
    (c : Cookie) (hD : i.DefaultLanguage = i2.DefaultLanguage)
    (hS : ∀ x, x ∈ i.SupportedLanguages ↔ x ∈ i2.SupportedLanguages) :
    fromLangHeader L i h = fromLangHeader L i2 h ∧ fromCookie L i c = fromCookie L i2 c := by
  constructor
  · unfold fromLangHeader
    split
    · exact hD
    · split_ifs
      · exact hD
      · exact fromLangHeaderLoop_set L i i2 hD hS _ _
  · unfold fromCookie
    split
    · exact hD
    · simp only [contains_congr i.SupportedLanguages i2.SupportedLanguages hS, hD]

theorem C16_supported_list_as_set_witness :
    fromLangHeader refLanguage germanDefault "it, en;q=0.8, fr;q=0.8" =
      fromLangHeader refLanguage germanDefaultReordered "it, en;q=0.8, fr;q=0.8" ∧
    fromCookie refLanguage germanDefault ⟨"cookie-lang", "fr"⟩ =
      fromCookie refLanguage germanDefaultReordered ⟨"cookie-lang", "fr"⟩ :=
  C16_supported_list_as_set refLanguage germanDefault germanDefaultReordered
    "it, en;q=0.8, fr;q=0.8" ⟨"cookie-lang", "fr"⟩ rfl
    (by intro x; simp only [germanDefault, germanDefaultReordered, List.mem_cons,
          List.mem_singleton, List.not_mem_nil, or_false]; tauto)

/-- C17: `globalInit` is not atomic on the caller-owned slice.  When the default
language fails to parse the slice is left unchanged.  When the default parses and
the entry at index `k` is the first that fails to parse, the entries before `k`
hold their canonical strings and the entries from `k` on are unchanged, and no
middleware is returned. -/
theorem C17_globalInit_partial_overwrite (L : Language) (d : String) :
    (∀ (S : List String) (e : L.Err), L.ParseBase d = .error e →
      (globalInit L d S).slice = S ∧ (globalInit L d S).mid = none) ∧
    (∀ (bd : L.Base) (pre : List (String × L.Base)) (bad : String) (post : List String)
        (e : L.Err),
      L.ParseBase d = .ok bd →
      (∀ p ∈ pre, L.ParseBase p.1 = .ok p.2) →
      L.ParseBase bad = .error e →
      (globalInit L d (pre.map Prod.fst ++ bad :: post)).slice =
        pre.map (fun p => L.BaseString p.2) ++ bad :: post ∧
      (globalInit L d (pre.map Prod.fst ++ bad :: post)).mid = none) := by
  constructor
  · intro S e he
    unfold globalInit
    rw [he]
    exact ⟨rfl, rfl⟩
  · intro bd pre bad post e hd hpre hbad
    have hl := globalInitLoop_stops L bad post ⟨e, hbad⟩ pre hpre
    constructor <;> simp [globalInit, hd, hl]

theorem C17_globalInit_partial_overwrite_witness :
    (globalInit refLanguage "english" ["FR", "EN"]).slice = ["FR", "EN"] ∧
    (globalInit refLanguage "en" ["FR", "EN", "e", "DE"]).slice = ["fr", "en", "e", "DE"] :=
  ⟨((C17_globalInit_partial_overwrite refLanguage "english").1 ["FR", "EN"] () rfl).1,
   ((C17_globalInit_partial_overwrite refLanguage "en").2 "en" [("FR", "fr"), ("EN", "en")]
      "e" ["DE"] () rfl
      (by
        intro p hp
        simp only [List.mem_cons, List.mem_singleton, List.not_mem_nil, or_false] at hp
        rcases hp with rfl | rfl <;> rfl)
      rfl).1⟩

end Langmiddleware
